import Mathlib

/-!
Verification of the chord-progression explorer's core music-theory engine
(`script.js`): equal-temperament and just-intonation frequency computation,
chord-formula rescaling across equal divisions of the octave, chord step-index
resolution, and note naming.

JavaScript semantics are embedded as follows: JS numbers are modelled by exact
arithmetic (`ℚ` for the rational intermediate computations, `ℝ` for
frequencies), the JS `%` operator by truncated remainder `Int.tmod`,
`Math.round` by `⌊q + 1/2⌋` (round half toward plus infinity), JS object
property lookup by an association-list lookup returning `Option`, and JS array
indexing (which yields `undefined` out of range) by an `Option`-returning
accessor.
-/

namespace ChordProg

/-- `BASE_FREQ_C4` from `script.js`: reference frequency for C (step 0). -/
def BASE_FREQ_C4 : ℝ := 261.63

/-- `SEMITONE_NAMES_12` from `script.js`. -/
def SEMITONE_NAMES_12 : List String :=
  "C" :: "C#" :: "D" :: "D#" :: "E" :: "F" ::
    "F#" :: "G" :: "G#" :: "A" :: "A#" :: "B" :: []

/-- `CHORD_TYPES_12` from `script.js`: 12-EDO chord formulas in semitone
intervals, as an association list in object-literal order. -/
def CHORD_TYPES_12 : List (String × List ℤ) :=
  [("Major", [0, 4, 7]),
   ("Minor", [0, 3, 7]),
   ("Diminished", [0, 3, 6]),
   ("Augmented", [0, 4, 8]),
   ("Major 7th", [0, 4, 7, 11]),
   ("Minor 7th", [0, 3, 7, 10]),
   ("Dominant 7th", [0, 4, 7, 10]),
   ("Sus2", [0, 2, 7]),
   ("Sus4", [0, 5, 7])]

/-- `EXTRA_CHORDS_31` from `script.js`: additional 31-EDO chords. -/
def EXTRA_CHORDS_31 : List (String × List ℤ) :=
  [("Supermajor", [0, 9, 13]),
   ("Subminor", [0, 6, 13])]

/-- `STANDARD_JI_RATIOS_12` from `script.js`: just-intonation frequency
multipliers for the 12 semitone positions. -/
def STANDARD_JI_RATIOS_12 : List ℚ :=
  [1/1, 16/15, 9/8, 6/5, 5/4, 4/3, 45/32, 3/2, 8/5, 5/3, 9/5, 15/8]

/-- `CHORD_JI_RATIOS` from `script.js`: chord-specific just-intonation ratios
relative to the root, in object-literal order. -/
def CHORD_JI_RATIOS : List (String × List ℚ) :=
  [("Major", [1, 5/4, 3/2]),
   ("Minor", [1, 6/5, 3/2]),
   ("Diminished", [1, 6/5, 7/5]),
   ("Augmented", [1, 5/4, 25/16]),
   ("Major 7th", [1, 5/4, 3/2, 15/8]),
   ("Minor 7th", [1, 6/5, 3/2, 9/5]),
   ("Dominant 7th", [1, 5/4, 3/2, 7/4]),
   ("Sus2", [1, 9/8, 3/2]),
   ("Sus4", [1, 4/3, 3/2]),
   ("Supermajor", [1, 9/8, 13/8]),
   ("Subminor", [1, 6/5, 13/8])]

/-- JS object property read `obj[key]`: first binding wins, `undefined`
(`none`) when absent. -/
def slookup {α : Type} : List (String × α) → String → Option α
  | [], _ => none
  | (k, v) :: rest, key => if key = k then some v else slookup rest key

/-- JS array read `arr[i]`: `undefined` (`none`) outside `[0, length)`. -/
def arrayGet {α : Type} (l : List α) (i : ℤ) : Option α :=
  if 0 ≤ i then l[i.toNat]? else none

/-- JS `Math.round`: round half toward positive infinity. -/
def jsRound (q : ℚ) : ℤ := ⌊q + 1/2⌋

/-- JS `%` on integers: remainder truncated toward zero. -/
def jsMod (a n : ℤ) : ℤ := Int.tmod a n

noncomputable section

/-- `computeETFrequencies` from `script.js`: the equal-temperament frequency
table for division `N`, entry `s` being `BASE_FREQ_C4 * 2^(s / N)`. -/
def computeETFrequencies (N : ℕ) : List ℝ :=
  (List.range N).map (fun s : ℕ => BASE_FREQ_C4 * (2:ℝ) ^ ((s:ℝ) / (N:ℝ)))

/-- The equal-temperament frequency formula (the loop body of
`computeETFrequencies`), extended to arbitrary integer steps. -/
def equalTemperamentFrequency (N : ℕ) (s : ℤ) : ℝ :=
  BASE_FREQ_C4 * (2:ℝ) ^ ((s:ℝ) / (N:ℝ))

/-- Indexing a `(List.range N).map f` table. -/
lemma getD_range_map {α : Type} (f : ℕ → α) (d : α) {N s : ℕ} (h : s < N) :
    ((List.range N).map f).getD s d = f s := by
  simp [List.getD_eq_getElem?_getD, List.getElem?_range h]

/-- Truncated remainder negates with the dividend. -/
lemma tmod_neg_dividend (a b : ℤ) : (-a).tmod b = -(a.tmod b) := by
  rw [Int.tmod_def, Int.tmod_def, Int.neg_tdiv]
  ring

/-- For a positive modulus the truncated remainder exceeds `-n`. -/
lemma tmod_gt_neg (x n : ℤ) (hn : 0 < n) : -n < x.tmod n := by
  rcases le_or_lt 0 x with hx | hx
  · have := Int.tmod_nonneg n hx
    omega
  · have hx' : 0 ≤ -x := by omega
    have h1 : (-x).tmod n < n := Int.tmod_lt_of_pos (-x) hn
    have h2 : x.tmod n = -((-x).tmod n) := by
      rw [← tmod_neg_dividend, neg_neg]
    omega

/-- The idiom `((x % n) + n) % n` of `script.js` (with JS truncated `%`)
computes the mathematical modulus, normalized to `[0, n)`. -/
lemma jsMod_norm (x n : ℤ) (hn : 0 < n) : jsMod (jsMod x n + n) n = x % n := by
  have hcong : x.tmod n % n = x % n := by
    have h := Int.add_mul_emod_self_left (x.tmod n) n (x.tdiv n)
    rw [show x.tmod n + n * x.tdiv n = x from by
      rw [Int.add_comm]; exact Int.tdiv_add_tmod x n] at h
    exact h.symm
  have hlow : 0 ≤ x.tmod n + n := by
    have := tmod_gt_neg x n hn
    omega
  rw [jsMod, jsMod, Int.tmod_eq_emod hlow (le_of_lt hn)]
  have hplus : (x.tmod n + n) % n = x.tmod n % n := by
    have h := Int.add_mul_emod_self_left (x.tmod n) n 1
    rwa [mul_one] at h
  rw [hplus, hcong]

/-- JS object property write `obj[key] = value`: replaces the binding in
place when the key exists, appends it otherwise. -/
def objInsert {α : Type} (l : List (String × α)) (k : String) (v : α) :
    List (String × α) :=
  if l.any (fun p => decide (p.1 = k)) then
    l.map (fun p => if p.1 = k then (k, v) else p)
  else l ++ [(k, v)]

lemma slookup_map_replace {α : Type} (l : List (String × α)) (k k' : String)
    (v : α) (hk : k' ≠ k) :
    slookup (l.map (fun p => if p.1 = k then (k, v) else p)) k' = slookup l k' := by
  induction l with
  | nil => rfl
  | cons p rest ih =>
    obtain ⟨pk, pv⟩ := p
    simp only [List.map_cons]
    by_cases hp : pk = k
    · subst hp
      rw [if_pos rfl]
      simp only [slookup]
      rw [if_neg hk, if_neg hk]
      exact ih
    · rw [if_neg hp]
      simp only [slookup]
      rw [ih]

lemma slookup_append_single {α : Type} (l : List (String × α)) (k k' : String)
    (v : α) (hk : k' ≠ k) :
    slookup (l ++ [(k, v)]) k' = slookup l k' := by
  induction l with
  | nil => simp only [List.nil_append, slookup, if_neg hk]
  | cons p rest ih =>
    obtain ⟨pk, pv⟩ := p
    rw [List.cons_append]
    simp only [slookup]
    rw [ih]

lemma slookup_objInsert_ne {α : Type} (l : List (String × α)) (k k' : String)
    (v : α) (hk : k' ≠ k) :
    slookup (objInsert l k v) k' = slookup l k' := by
  rw [objInsert]
  split
  · exact slookup_map_replace l k k' v hk
  · exact slookup_append_single l k k' v hk

lemma slookup_map_replace_found {α : Type} (l : List (String × α)) (k : String)
    (v : α) (h : l.any (fun p => decide (p.1 = k)) = true) :
    slookup (l.map (fun p => if p.1 = k then (k, v) else p)) k = some v := by
  induction l with
  | nil => simp at h
  | cons p rest ih =>
    obtain ⟨pk, pv⟩ := p
    simp only [List.map_cons]
    by_cases hp : pk = k
    · subst hp
      rw [if_pos rfl]
      simp [slookup]
    · rw [if_neg hp]
      simp only [slookup]
      rw [if_neg (fun e : k = pk => hp e.symm)]
      apply ih
      simp only [List.any_cons, Bool.or_eq_true, decide_eq_true_eq] at h
      exact h.resolve_left hp

lemma slookup_append_found {α : Type} (l : List (String × α)) (k : String)
    (v : α) (h : l.any (fun p => decide (p.1 = k)) = false) :
    slookup (l ++ [(k, v)]) k = some v := by
  induction l with
  | nil => simp [slookup]
  | cons p rest ih =>
    obtain ⟨pk, pv⟩ := p
    simp only [List.any_cons, Bool.or_eq_false_iff, decide_eq_false_iff_not] at h
    simp only [List.cons_append, slookup]
    rw [if_neg (fun e : k = pk => h.1 e.symm)]
    exact ih (by simpa using h.2)

lemma slookup_objInsert_self {α : Type} (l : List (String × α)) (k : String)
    (v : α) : slookup (objInsert l k v) k = some v := by
  rw [objInsert]
  split
  case isTrue h => exact slookup_map_replace_found l k v h
  case isFalse h =>
    exact slookup_append_found l k v (by rwa [Bool.not_eq_true] at h)

lemma slookup_map_snd {α β : Type} (G : α → β) (l : List (String × α))
    (k : String) :
    slookup (l.map (fun p => (p.1, G p.2))) k = (slookup l k).map G := by
  induction l with
  | nil => rfl
  | cons p rest ih =>
    simp only [List.map, slookup]
    by_cases hp : k = p.1 <;> simp [hp, ih]

lemma slookup_mem {α : Type} {l : List (String × α)} {k : String} {v : α}
    (h : slookup l k = some v) : k ∈ l.map Prod.fst := by
  induction l with
  | nil => simp [slookup] at h
  | cons p rest ih =>
    rw [slookup] at h
    by_cases hp : k = p.1
    · simp [hp]
    · rw [if_neg hp] at h
      simp [ih h]

lemma slookup_foldl_objInsert_of_notmem {α β : Type} (L : List (String × α))
    (G : String × α → β) (acc : List (String × β)) (k : String)
    (hk : ∀ p ∈ L, p.1 ≠ k) :
    slookup (L.foldl (fun a p => objInsert a p.1 (G p)) acc) k = slookup acc k := by
  induction L generalizing acc with
  | nil => rfl
  | cons p rest ih =>
    rw [List.foldl_cons, ih _ (fun q hq => hk q (List.mem_cons_of_mem p hq)),
      slookup_objInsert_ne _ _ _ _ (fun e => hk p (List.mem_cons_self p rest) e.symm)]

lemma slookup_foldl_objInsert_of_lookup {α β : Type} (L : List (String × α))
    (G : String × α → β) (acc : List (String × β)) (k : String) (v : α)
    (hnd : (L.map Prod.fst).Nodup) (h : slookup L k = some v) :
    slookup (L.foldl (fun a p => objInsert a p.1 (G p)) acc) k = some (G (k, v)) := by
  induction L generalizing acc with
  | nil => simp [slookup] at h
  | cons p rest ih =>
    obtain ⟨pk, pv⟩ := p
    rw [List.map_cons, List.nodup_cons] at hnd
    simp only [slookup] at h
    rw [List.foldl_cons]
    by_cases hp : k = pk
    · rw [if_pos hp] at h
      have hv : pv = v := Option.some_inj.mp h
      subst hv
      subst hp
      have hrest : ∀ q ∈ rest, q.1 ≠ k := by
        intro q hq e
        exact hnd.1 (List.mem_map.mpr ⟨q, hq, e⟩)
      rw [slookup_foldl_objInsert_of_notmem rest G _ k hrest, slookup_objInsert_self]
    · rw [if_neg hp] at h
      exact ih _ hnd.2 h

/-- Rescaling of a 12-EDO interval list to division `N` in
`buildChordSetsForDivision`: `offset ↦ Math.round(offset * (N / 12))`. -/
def mapIntervalsToDivision (N : ℕ) (intervals : List ℤ) : List ℤ :=
  intervals.map (fun i : ℤ => jsRound ((i:ℚ) * ((N:ℚ) / 12)))

/-- `buildChordSetsForDivision` from `script.js`: rescale the canonical 12-EDO
chord formulas to division `N`, then apply the division-specific extras
(19-EDO remaps, 24-EDO quarter-tone variants, 31-EDO extra chords plus
re-mapped standards). -/
def buildChordSetsForDivision (N : ℕ) : List (String × List ℤ) :=
  let sets := CHORD_TYPES_12.map (fun p => (p.1, mapIntervalsToDivision N p.2))
  if N = 19 then
    objInsert
      (objInsert sets "Major"
        (mapIntervalsToDivision 19 ((slookup CHORD_TYPES_12 "Major").getD [])))
      "Minor" (mapIntervalsToDivision 19 ((slookup CHORD_TYPES_12 "Minor").getD []))
  else if N = 24 then
    objInsert
      (objInsert sets "Quarter-tone Major"
        (mapIntervalsToDivision 24 ((slookup CHORD_TYPES_12 "Major").getD [])))
      "Quarter-tone Minor"
      (mapIntervalsToDivision 24 ((slookup CHORD_TYPES_12 "Minor").getD []))
  else if N = 31 then
    let sets1 := EXTRA_CHORDS_31.foldl (fun acc p => objInsert acc p.1 p.2) sets
    CHORD_TYPES_12.foldl
      (fun acc p => objInsert acc p.1 (mapIntervalsToDivision 31 p.2)) sets1
  else sets

/-- Looking up any canonical formula in the chord set built for division `N`
yields that formula rescaled by `mapIntervalsToDivision`. -/
lemma build_lookup (N : ℕ) (name : String) (intervals : List ℤ)
    (h : slookup CHORD_TYPES_12 name = some intervals) :
    slookup (buildChordSetsForDivision N) name =
      some (mapIntervalsToDivision N intervals) := by
  have hkey : name ∈ CHORD_TYPES_12.map Prod.fst := slookup_mem h
  rw [buildChordSetsForDivision]
  split_ifs with h19 h24 h31
  · subst h19
    by_cases hMin : name = "Minor"
    · subst hMin
      rw [slookup_objInsert_self, h]
      rfl
    · rw [slookup_objInsert_ne _ _ _ _ hMin]
      by_cases hMaj : name = "Major"
      · subst hMaj
        rw [slookup_objInsert_self, h]
        rfl
      · rw [slookup_objInsert_ne _ _ _ _ hMaj, slookup_map_snd, h]
        rfl
  · subst h24
    have hq1 : name ≠ "Quarter-tone Major" := by rintro rfl; revert hkey; decide
    have hq2 : name ≠ "Quarter-tone Minor" := by rintro rfl; revert hkey; decide
    rw [slookup_objInsert_ne _ _ _ _ hq2, slookup_objInsert_ne _ _ _ _ hq1,
      slookup_map_snd, h]
    rfl
  · subst h31
    rw [slookup_foldl_objInsert_of_lookup CHORD_TYPES_12
      (fun p => mapIntervalsToDivision 31 p.2) _ name intervals (by decide) h]
  · rw [slookup_map_snd, h]
    rfl

lemma jsRound_intCast_half (i : ℤ) : (⌊(i:ℚ) + 1/2⌋ : ℤ) = i := by
  rw [Int.floor_eq_iff]
  constructor
  · linarith
  · linarith

/-- Rescaling to `N = 12` is the identity on every interval list. -/
lemma mapIntervals12_id (l : List ℤ) : mapIntervalsToDivision 12 l = l := by
  rw [mapIntervalsToDivision]
  have hpt : ∀ i : ℤ, jsRound ((i:ℚ) * (((12:ℕ):ℚ) / 12)) = i := by
    intro i
    rw [jsRound, show ((i:ℚ) * (((12:ℕ):ℚ) / 12)) = (i:ℚ) by norm_num]
    exact jsRound_intCast_half i
  calc l.map (fun i : ℤ => jsRound ((i:ℚ) * (((12:ℕ):ℚ) / 12)))
      = l.map id := List.map_congr_left (fun i _ => hpt i)
    _ = l := List.map_id l

/-- `getChordStepIndexes` from `script.js` (with the root index and chord type
passed explicitly): the step indices of the chord in division `N`. -/
def getChordStepIndexes (N : ℕ) (root : ℤ) (chordType : String) : List ℤ :=
  match slookup (buildChordSetsForDivision N) chordType with
  | none => []
  | some intervals =>
      intervals.map (fun i => jsMod (jsMod (root + i) (N:ℤ) + (N:ℤ)) (N:ℤ))

/-- Claim C4: for every root step in `[0, N)` and every chord-formula name
known for division `N`, the resolved step indices are
`(root + scaledOffset_i) mod N` in the formula's interval order, each
normalized to `[0, N)`; in particular for root 10, the Major formula
`[0, 4, 7]`, and `N = 12`, the result is `[10, 2, 5]`. -/
theorem step_indexes_spec (N : ℕ) (hN : 1 ≤ N) (root : ℤ) (_hr0 : 0 ≤ root)
    (_hrN : root < (N:ℤ)) (name : String) (intervals : List ℤ)
    (h : slookup (buildChordSetsForDivision N) name = some intervals) :
    getChordStepIndexes N root name = intervals.map (fun i => (root + i) % (N:ℤ)) ∧
    (∀ x ∈ getChordStepIndexes N root name, 0 ≤ x ∧ x < (N:ℤ)) ∧
    getChordStepIndexes 12 10 "Major" = [10, 2, 5] := by
  have hNZ : (0:ℤ) < (N:ℤ) := by exact_mod_cast hN
  have heq : getChordStepIndexes N root name =
      intervals.map (fun i => (root + i) % (N:ℤ)) := by
    simp only [getChordStepIndexes, h]
    exact List.map_congr_left (fun i _ => jsMod_norm (root + i) (N:ℤ) hNZ)
  refine ⟨heq, ?_, ?_⟩
  · intro x hx
    rw [heq] at hx
    obtain ⟨i, _, rfl⟩ := List.mem_map.mp hx
    exact ⟨Int.emod_nonneg _ (ne_of_gt hNZ), Int.emod_lt_of_pos _ hNZ⟩
  · have hb : slookup (buildChordSetsForDivision 12) "Major" = some [0, 4, 7] := by
      have h0 := build_lookup 12 "Major" [0, 4, 7] (by decide)
      rwa [mapIntervals12_id] at h0
    simp only [getChordStepIndexes, hb]
    decide

/-- Witness for C4 at `N = 12`, root 10, formula "Major". -/
theorem step_indexes_spec_witness :
    getChordStepIndexes 12 10 "Major" = [10, 2, 5] := by
  have hb : slookup (buildChordSetsForDivision 12) "Major" = some [0, 4, 7] := by
    have h0 := build_lookup 12 "Major" [0, 4, 7] (by decide)
    rwa [mapIntervals12_id] at h0
  exact (step_indexes_spec 12 (by norm_num) 10 (by norm_num) (by norm_num)
    "Major" [0, 4, 7] hb).2.2

/-- Claim C5: building the chord sets for division `N` maps every offset of
every canonical 12-tone formula to `round(offset * N / 12)`; consequently
rescaling to `N = 12` is the identity — every canonical formula comes back
with its original offsets unchanged. -/
theorem chord_rescaling_spec :
    (∀ (N : ℕ) (name : String) (intervals : List ℤ),
      slookup CHORD_TYPES_12 name = some intervals →
      slookup (buildChordSetsForDivision N) name =
        some (intervals.map (fun i : ℤ => jsRound ((i:ℚ) * ((N:ℚ) / 12))))) ∧
    (∀ (name : String) (intervals : List ℤ),
      slookup CHORD_TYPES_12 name = some intervals →
      slookup (buildChordSetsForDivision 12) name = some intervals) := by
  constructor
  · intro N name intervals h
    exact build_lookup N name intervals h
  · intro name intervals h
    have h0 := build_lookup 12 name intervals h
    rwa [mapIntervals12_id] at h0

/-- Witness for C5 on the Major formula at `N = 12`. -/
theorem chord_rescaling_spec_witness :
    slookup CHORD_TYPES_12 "Major" = some [0, 4, 7] ∧
    slookup (buildChordSetsForDivision 12) "Major" = some [0, 4, 7] :=
  ⟨by decide, chord_rescaling_spec.2 "Major" [0, 4, 7] (by decide)⟩

/-- Per-step body of `computeJIApproxFrequencies` from `script.js`. -/
def jiApproxStep (N : ℕ) (s : ℕ) : ℝ :=
  let semitonePos : ℚ := (s:ℚ) * (12 / (N:ℚ))
  let semitoneIndexRound : ℤ := jsRound semitonePos
  let octaveOffset : ℤ := ⌊semitonePos / 12⌋
  let jiR : ℚ :=
    STANDARD_JI_RATIOS_12.getD (jsMod (jsMod semitoneIndexRound 12 + 12) 12).toNat 0
  BASE_FREQ_C4 * (jiR : ℝ) * (2:ℝ) ^ octaveOffset

/-- `computeJIApproxFrequencies` from `script.js`: the just-intonation display
table for division `N`. -/
def computeJIApproxFrequencies (N : ℕ) : List ℝ :=
  (List.range N).map (jiApproxStep N)

/-- Claim C6: for every division `N` and step `s` in `[0, N)`, the JI display
frequency equals `261.63 * StandardJIRatio[round(s*12/N) mod 12] *
2^⌊(s*12/N)/12⌋`, with `STANDARD_JI_RATIOS_12` the fixed 12-entry ratio
table. -/
theorem ji_approx_table_spec (N : ℕ) (s : ℕ) (hs : s < N) :
    (computeJIApproxFrequencies N).getD s 0 =
      261.63 *
        ((STANDARD_JI_RATIOS_12.getD ((jsRound ((s:ℚ) * 12 / (N:ℚ))) % 12).toNat 0 : ℚ) : ℝ) *
        (2:ℝ) ^ (⌊((s:ℚ) * 12 / (N:ℚ)) / 12⌋ : ℤ) := by
  rw [computeJIApproxFrequencies, getD_range_map _ _ hs]
  have hp : (s:ℚ) * (12 / (N:ℚ)) = (s:ℚ) * 12 / (N:ℚ) := by ring
  simp only [jiApproxStep, hp, jsMod_norm _ 12 (by norm_num), BASE_FREQ_C4]

/-- Witness for C6 at `N = 12`, `s = 0`. -/
theorem ji_approx_table_spec_witness :
    (computeJIApproxFrequencies 12).getD 0 0 =
      261.63 *
        ((STANDARD_JI_RATIOS_12.getD ((jsRound ((0:ℚ) * 12 / (12:ℚ))) % 12).toNat 0 : ℚ) : ℝ) *
        (2:ℝ) ^ (⌊((0:ℚ) * 12 / (12:ℚ)) / 12⌋ : ℤ) := by
  have h := ji_approx_table_spec 12 0 (by norm_num)
  simpa using h

/-- Claim C10: in division 24 the topmost JI display entry collapses to the
base register: step 23 rounds to semitone 12, wrapping to ratio index 0 while
the octave offset stays 0, so the entry is exactly 261.63 Hz; hence the JI
display table is not monotonically increasing. -/
theorem ji_approx24_top_collapses :
    (computeJIApproxFrequencies 24).getD 23 0 = 261.63 ∧
    ¬ List.Sorted (· ≤ ·) (computeJIApproxFrequencies 24) := by
  have e23 : jiApproxStep 24 23 = 261.63 := by
    simp only [jiApproxStep]
    push_cast
    have h1 : jsRound ((23:ℚ) * (12 / (24:ℚ))) = 12 := by norm_num [jsRound]
    have h2 : (⌊((23:ℚ) * (12 / (24:ℚ))) / 12⌋ : ℤ) = 0 := by norm_num
    rw [h1, h2]
    have h3 : jsMod (jsMod 12 12 + 12) 12 = 0 := by decide
    rw [h3]
    norm_num [STANDARD_JI_RATIOS_12, BASE_FREQ_C4]
  have e22 : jiApproxStep 24 22 = 261.63 * ((15/8 : ℚ) : ℝ) := by
    simp only [jiApproxStep]
    push_cast
    have h1 : jsRound ((22:ℚ) * (12 / (24:ℚ))) = 11 := by norm_num [jsRound]
    have h2 : (⌊((22:ℚ) * (12 / (24:ℚ))) / 12⌋ : ℤ) = 0 := by norm_num
    rw [h1, h2]
    have h3 : jsMod (jsMod 11 12 + 12) 12 = 11 := by decide
    rw [h3, show ((11:ℤ)).toNat = 11 from rfl]
    norm_num [STANDARD_JI_RATIOS_12, BASE_FREQ_C4]
  constructor
  · rw [computeJIApproxFrequencies, getD_range_map _ _ (by norm_num)]
    exact e23
  · intro hsorted
    have hlen : (computeJIApproxFrequencies 24).length = 24 := by
      simp [computeJIApproxFrequencies]
    have h22 := List.pairwise_iff_getElem.mp hsorted 22 23
      (by omega) (by omega) (by norm_num)
    simp only [computeJIApproxFrequencies, List.getElem_map, List.getElem_range] at h22
    rw [e22, e23] at h22
    norm_num at h22

/-- Claim C1: for every division `N ≥ 1`, every in-range entry of the
equal-temperament table is `261.63 * 2^(s / N)`; the frequency at step 0 is
exactly the base frequency 261.63 Hz; and for every step `s` in `[0, N)` the
frequency formula at `s + N` is exactly twice its value at `s` (octave
doubling, the formula extrapolating beyond `[0, N)`). -/
theorem et_frequency_spec (N : ℕ) (hN : 1 ≤ N) :
    (∀ s : ℕ, s < N →
      (computeETFrequencies N).getD s 0 = equalTemperamentFrequency N s) ∧
    equalTemperamentFrequency N 0 = 261.63 ∧
    (∀ s : ℤ, 0 ≤ s → s < N →
      equalTemperamentFrequency N (s + N) = 2 * equalTemperamentFrequency N s) := by
  have hN0 : (N:ℝ) ≠ 0 := Nat.cast_ne_zero.mpr (by omega)
  refine ⟨?_, ?_, ?_⟩
  · intro s hs
    rw [computeETFrequencies, getD_range_map _ _ hs, equalTemperamentFrequency]
    norm_num
  · rw [equalTemperamentFrequency]
    norm_num [BASE_FREQ_C4]
  · intro s _ _
    rw [equalTemperamentFrequency, equalTemperamentFrequency]
    have harg : ((s + (N:ℤ) : ℤ) : ℝ) / (N:ℝ) = (s:ℝ) / (N:ℝ) + 1 := by
      push_cast
      field_simp
    rw [harg, Real.rpow_add (by norm_num : (0:ℝ) < 2), Real.rpow_one]
    ring

/-- Witness for C1 at `N = 12`, `s = 0`. -/
theorem et_frequency_spec_witness :
    (computeETFrequencies 12).getD 0 0 = equalTemperamentFrequency 12 0 ∧
    equalTemperamentFrequency 12 0 = 261.63 ∧
    equalTemperamentFrequency 12 (0 + 12) = 2 * equalTemperamentFrequency 12 0 := by
  obtain ⟨h1, h2, h3⟩ := et_frequency_spec 12 (by norm_num)
  exact ⟨h1 0 (by norm_num), h2, h3 0 (by norm_num) (by norm_num)⟩

/-- `computeJIFrequenciesForChord` from `script.js`: just-intonation chord
frequencies anchored at the ET frequency of the root step, with the
chord-ratio / semitone-formula / equal-spacing fallback chain. Each entry is
`none` when the root lookup was `undefined`. -/
def computeJIFrequenciesForChord (N : ℕ) (rootStep : ℤ) (chordType : String)
    (numNotes : ℕ) : List (Option ℝ) :=
  let rootFreqET : Option ℝ := arrayGet (computeETFrequencies N) rootStep
  match slookup CHORD_JI_RATIOS chordType with
  | some ratios =>
    if numNotes ≤ ratios.length then
      (ratios.take numNotes).map (fun r : ℚ => rootFreqET.map (fun f => f * (r:ℝ)))
    else
      (List.range numNotes).map (fun i : ℕ =>
        rootFreqET.map (fun f =>
          f * ((ratios.getD (min i (ratios.length - 1)) 0 : ℚ) : ℝ)))
  | none =>
    match slookup CHORD_TYPES_12 chordType with
    | some semitoneIntervals =>
      let noteRs : List ℝ := semitoneIntervals.map (fun si : ℤ =>
        match arrayGet STANDARD_JI_RATIOS_12 (jsMod si 12) with
        | some rq => if rq = 0 then (2:ℝ) ^ ((si:ℝ) / 12) else (rq:ℝ)
        | none => (2:ℝ) ^ ((si:ℝ) / 12))
      (noteRs.take numNotes).map (fun r => rootFreqET.map (fun f => f * r))
    | none =>
      (List.range numNotes).map (fun i : ℕ =>
        rootFreqET.map (fun f => f * (2:ℝ) ^ ((i:ℝ) / (numNotes:ℝ))))

/-- JI-mode chord resolution as performed by `playCurrentChord` in
`script.js`: resolve the step indices, bail out when empty, then compute the
JI frequencies for that many notes. -/
def resolveChordJI (N : ℕ) (root : ℤ) (chordType : String) : List (Option ℝ) :=
  let steps := getChordStepIndexes N root chordType
  if steps.isEmpty then []
  else computeJIFrequenciesForChord N root chordType steps.length

/-- ET-mode chord playback list from `playCurrentChord` in `script.js`: the
defined ET frequencies of the resolved step indices (undefined entries are
skipped by the `if (!freq) return` guard). -/
def resolveChordET (N : ℕ) (root : ℤ) (chordType : String) : List ℝ :=
  (getChordStepIndexes N root chordType).filterMap
    (fun s => arrayGet (computeETFrequencies N) s)

/-- Every canonical 12-EDO chord formula name also has a chord-specific JI
ratio entry (so the semitone-formula fallback branch is never taken). -/
lemma chord_types_have_ji (name : String) (sem : List ℤ)
    (h : slookup CHORD_TYPES_12 name = some sem) :
    (slookup CHORD_JI_RATIOS name).isSome := by
  have hkey := slookup_mem h
  simp only [CHORD_TYPES_12, List.map_cons, List.map_nil, List.mem_cons,
    List.not_mem_nil, or_false] at hkey
  rcases hkey with rfl | rfl | rfl | rfl | rfl | rfl | rfl | rfl | rfl <;> rfl

/-- Claim C2: for every chord name and requested note count, the JI
chord-frequency computation returns exactly `count` frequencies and follows
the documented resolution order: (1) a chord-specific ratio list with enough
entries is used positionally; (2) a shorter list is extended by repeating its
last ratio; (3) otherwise a canonical semitone formula is mapped through the
standard JI table at `offset mod 12`; (4) otherwise the frequencies are
equally spaced, `rootET * 2^(i/count)`. -/
theorem ji_chord_resolution_spec (N : ℕ) (rootStep : ℤ) (chordType : String)
    (numNotes : ℕ) :
    (computeJIFrequenciesForChord N rootStep chordType numNotes).length = numNotes ∧
    (∀ ratios, slookup CHORD_JI_RATIOS chordType = some ratios →
      numNotes ≤ ratios.length →
      computeJIFrequenciesForChord N rootStep chordType numNotes =
        (ratios.take numNotes).map (fun r : ℚ =>
          (arrayGet (computeETFrequencies N) rootStep).map (fun f => f * (r:ℝ)))) ∧
    (∀ ratios, slookup CHORD_JI_RATIOS chordType = some ratios →
      ratios.length < numNotes →
      ∀ i : ℕ, i < numNotes →
      (computeJIFrequenciesForChord N rootStep chordType numNotes).getD i none =
        (arrayGet (computeETFrequencies N) rootStep).map (fun f =>
          f * ((if i < ratios.length then ratios.getD i 0
                else ratios.getLastD 0 : ℚ) : ℝ))) ∧
    (∀ sem, slookup CHORD_JI_RATIOS chordType = none →
      slookup CHORD_TYPES_12 chordType = some sem →
      computeJIFrequenciesForChord N rootStep chordType numNotes =
        ((sem.map (fun si : ℤ =>
            ((STANDARD_JI_RATIOS_12.getD (si % 12).toNat 0 : ℚ) : ℝ))).take numNotes).map
          (fun r => (arrayGet (computeETFrequencies N) rootStep).map (fun f => f * r))) ∧
    (slookup CHORD_JI_RATIOS chordType = none →
      slookup CHORD_TYPES_12 chordType = none →
      computeJIFrequenciesForChord N rootStep chordType numNotes =
        (List.range numNotes).map (fun i : ℕ =>
          (arrayGet (computeETFrequencies N) rootStep).map
            (fun f => f * (2:ℝ) ^ ((i:ℝ) / (numNotes:ℝ))))) := by
  refine ⟨?_, ?_, ?_, ?_, ?_⟩
  · cases hcj : slookup CHORD_JI_RATIOS chordType with
    | some ratios =>
      by_cases hlen : numNotes ≤ ratios.length
      · simp [computeJIFrequenciesForChord, hcj, if_pos hlen, List.length_take,
          Nat.min_eq_left hlen]
      · simp [computeJIFrequenciesForChord, hcj, if_neg hlen]
    | none =>
      cases hct : slookup CHORD_TYPES_12 chordType with
      | some sem =>
        have := chord_types_have_ji chordType sem hct
        rw [hcj] at this
        simp at this
      | none => simp [computeJIFrequenciesForChord, hcj, hct]
  · intro ratios hcj hlen
    simp [computeJIFrequenciesForChord, hcj, if_pos hlen]
  · intro ratios hcj hlen i hi
    simp only [computeJIFrequenciesForChord, hcj, if_neg (not_le.mpr hlen)]
    rw [getD_range_map _ _ hi]
    rcases lt_or_le i ratios.length with hcase | hcase
    · rw [if_pos hcase, Nat.min_eq_left (by omega)]
    · rw [if_neg (not_lt.mpr hcase), Nat.min_eq_right (by omega)]
      have hlast : ratios.getLastD 0 = ratios.getD (ratios.length - 1) 0 := by
        rw [List.getLastD_eq_getLast?, List.getLast?_eq_getElem?,
          List.getD_eq_getElem?_getD]
      rw [hlast]
  · intro sem hcj hct
    have := chord_types_have_ji chordType sem hct
    rw [hcj] at this
    simp at this
  · intro hcj hct
    simp [computeJIFrequenciesForChord, hcj, hct]

/-- Witness for C2: branch (1) and the length property at division 12, root
step 0, "Major", three notes. -/
theorem ji_chord_resolution_spec_witness :
    (computeJIFrequenciesForChord 12 0 "Major" 3).length = 3 ∧
    computeJIFrequenciesForChord 12 0 "Major" 3 =
      (([1, 5/4, 3/2] : List ℚ).take 3).map (fun r : ℚ =>
        (arrayGet (computeETFrequencies 12) 0).map (fun f => f * (r:ℝ))) :=
  ⟨(ji_chord_resolution_spec 12 0 "Major" 3).1,
   (ji_chord_resolution_spec 12 0 "Major" 3).2.1 [1, 5/4, 3/2] rfl (by decide)⟩

/-- Claim C7: for every root step, division `N`, and chord-formula name that
is not in the formula set of division `N`, chord resolution returns an empty
sequence and never raises (silent no-op). -/
theorem unknown_chord_empty (N : ℕ) (root : ℤ) (name : String)
    (h : slookup (buildChordSetsForDivision N) name = none) :
    getChordStepIndexes N root name = [] ∧
    resolveChordJI N root name = [] ∧
    resolveChordET N root name = [] := by
  have hsteps : getChordStepIndexes N root name = [] := by
    simp only [getChordStepIndexes, h]
  refine ⟨hsteps, ?_, ?_⟩
  · simp [resolveChordJI, hsteps]
  · rw [resolveChordET, hsteps]
    rfl

/-- Witness for C7: the name "Nope" is unknown in division 12. -/
theorem unknown_chord_empty_witness :
    getChordStepIndexes 12 0 "Nope" = [] ∧
    resolveChordJI 12 0 "Nope" = [] ∧
    resolveChordET 12 0 "Nope" = [] :=
  unknown_chord_empty 12 0 "Nope" (by decide)

/-- Counterexample to claim C8: the root-frequency lookup used by the JI
chord computation does not modulo-normalize out-of-range steps — in division
12, looking up step 12 yields `undefined` (no frequency), not the frequency
at `12 mod 12 = 0`. -/
theorem root_lookup_no_mod_counterexample :
    arrayGet (computeETFrequencies 12) 12 ≠
      arrayGet (computeETFrequencies 12) ((12:ℤ) % 12) := by
  have h1 : arrayGet (computeETFrequencies 12) 12 = none := by
    rw [arrayGet, if_pos (by norm_num)]
    apply List.getElem?_eq_none
    simp [computeETFrequencies]
  have h2 : (12:ℤ) % 12 = 0 := by decide
  have h3 : (arrayGet (computeETFrequencies 12) ((12:ℤ) % 12)).isSome := by
    rw [h2, arrayGet, if_pos le_rfl]
    rw [List.getElem?_eq_getElem (by simp [computeETFrequencies])]
    rfl
  intro he
  rw [← he, h1] at h3
  simp at h3

/-- Amended C8: the ET-table lookup used by JI chord computation indexes the
table directly: for `N ≥ 1` and any integer step outside `[0, N)` it yields
no frequency (`undefined`), while the lookup at `s mod N` does succeed. -/
theorem root_lookup_out_of_range (N : ℕ) (hN : 1 ≤ N) (s : ℤ)
    (h : s < 0 ∨ (N:ℤ) ≤ s) :
    arrayGet (computeETFrequencies N) s = none ∧
    (arrayGet (computeETFrequencies N) (s % (N:ℤ))).isSome := by
  have hNZ : (0:ℤ) < (N:ℤ) := by exact_mod_cast hN
  constructor
  · rcases h with hneg | hbig
    · rw [arrayGet, if_neg (by omega)]
    · rw [arrayGet, if_pos (by omega)]
      apply List.getElem?_eq_none
      simp only [computeETFrequencies, List.length_map, List.length_range]
      omega
  · rw [arrayGet, if_pos (Int.emod_nonneg s (ne_of_gt hNZ))]
    have hm1 := Int.emod_lt_of_pos s hNZ
    have hm2 := Int.emod_nonneg s (ne_of_gt hNZ)
    have hlt : (s % (N:ℤ)).toNat < (computeETFrequencies N).length := by
      simp only [computeETFrequencies, List.length_map, List.length_range]
      omega
    rw [List.getElem?_eq_getElem hlt]
    rfl

/-- Witness for the amended C8 at `N = 12`, `s = 12`. -/
theorem root_lookup_out_of_range_witness :
    arrayGet (computeETFrequencies 12) 12 = none ∧
    (arrayGet (computeETFrequencies 12) ((12:ℤ) % 12)).isSome :=
  root_lookup_out_of_range 12 (by norm_num) 12 (Or.inr (by norm_num))

/-- Claim C3: resolving root step 0, name "Major", division 12 in
just-intonation mode returns exactly the three frequencies
`[261.63, 261.63 * 5/4, 261.63 * 3/2]`: the root is anchored at the
equal-temperament reference frequency and the remaining tones are exact
rational multiples of it. -/
theorem resolve_major_ji_12 :
    resolveChordJI 12 0 "Major" =
      [some (261.63:ℝ), some (261.63 * (5/4 : ℝ)), some (261.63 * (3/2 : ℝ))] := by
  have hb : slookup (buildChordSetsForDivision 12) "Major" = some [0, 4, 7] := by
    have h0 := build_lookup 12 "Major" [0, 4, 7] (by decide)
    rwa [mapIntervals12_id] at h0
  have hsteps : getChordStepIndexes 12 0 "Major" = [0, 4, 7] := by
    simp only [getChordStepIndexes, hb]
    decide
  have hroot : arrayGet (computeETFrequencies 12) 0 = some (261.63:ℝ) := by
    rw [arrayGet, if_pos le_rfl]
    rw [List.getElem?_eq_getElem (by simp [computeETFrequencies])]
    simp [computeETFrequencies, BASE_FREQ_C4]
  have hr : slookup CHORD_JI_RATIOS "Major" = some [1, 5/4, 3/2] := rfl
  simp only [resolveChordJI, hsteps, List.isEmpty_cons, Bool.false_eq_true,
    if_false, List.length_cons, List.length_nil]
  simp only [computeJIFrequenciesForChord, hr, hroot]
  norm_num [List.take, Option.map]

/-- `toFixed1` models the JS `x.toFixed(1)` used for the cents fallback
label: sign of the argument, then the magnitude rounded to one decimal
(ties away from zero). -/
def toFixed1 (q : ℚ) : String :=
  let sgn := if q < 0 then "-" else ""
  let n := (jsRound (|q| * 10)).toNat
  sgn ++ toString (n / 10) ++ "." ++ toString (n % 10)

/-- Loop body of `generateNoteNamesForDivision` from `script.js`: the label
of step `s` in division `N` by the nearest-semitone / fractional-offset
heuristic. -/
def noteNameForStep (N : ℕ) (s : ℕ) : String :=
  let semitonePos : ℚ := (s:ℚ) * (12 / (N:ℚ))
  let base : ℤ := ⌊semitonePos⌋
  let semitoneIndex : ℕ := (jsMod (jsMod base 12 + 12) 12).toNat
  let frac0 : ℚ := semitonePos - base
  let frac : ℚ := if frac0 ≥ 1/2 then frac0 - 1 else frac0
  let q : ℚ := (jsRound (frac * 4) : ℚ) / 4
  if |q| < 1/8 then SEMITONE_NAMES_12.getD semitoneIndex ""
  else
    let sgn := if q > 0 then "sharp" else "flat"
    let mag := |q|
    if |mag - 1/2| < 1/1000 ∨ |mag - 2/4| < 1/1000 then
      SEMITONE_NAMES_12.getD semitoneIndex "" ++ " half-" ++ sgn
    else if |mag - 3/4| < 1/1000 then
      SEMITONE_NAMES_12.getD semitoneIndex "" ++ " three-quarter-" ++ sgn
    else if |mag - 1/4| < 1/1000 then
      SEMITONE_NAMES_12.getD semitoneIndex "" ++ " quarter-" ++ sgn
    else
      SEMITONE_NAMES_12.getD semitoneIndex "" ++ " (" ++ toFixed1 (frac * 100) ++ "c)"

/-- `generateNoteNamesForDivision` from `script.js`. -/
def generateNoteNamesForDivision (N : ℕ) : List String :=
  (List.range N).map (noteNameForStep N)

/-- In division 12 every step sits exactly on a semitone, so every label is
the plain natural/sharp name. -/
lemma noteName_12_natural (s : ℕ) :
    noteNameForStep 12 s = SEMITONE_NAMES_12.getD (s % 12) "" := by
  have hsp : (s:ℚ) * (12 / ((12:ℕ):ℚ)) = (s:ℚ) := by norm_num
  have hfl : (⌊(s:ℚ)⌋ : ℤ) = (s:ℤ) := Int.floor_natCast s
  simp only [noteNameForStep, hsp, hfl]
  have hfrac : (s:ℚ) - ((s:ℤ):ℚ) = 0 := by push_cast; ring
  rw [hfrac]
  have hfr : (if (0:ℚ) ≥ 1/2 then (0:ℚ) - 1 else (0:ℚ)) = 0 := by norm_num
  rw [hfr]
  have hq : ((jsRound ((0:ℚ) * 4) : ℤ) : ℚ) / 4 = 0 := by norm_num [jsRound]
  rw [hq]
  rw [if_pos (show |(0:ℚ)| < 1/8 by norm_num)]
  congr 1
  rw [jsMod_norm _ 12 (by norm_num)]
  have : ((s:ℤ)) % 12 = ((s % 12 : ℕ) : ℤ) := by push_cast; ring
  rw [this, Int.toNat_natCast]

/-- Claim C9: the note-name generation for division 12 returns exactly the
twelve labels C, C#, D, D#, E, F, F#, G, G#, A, A#, B in that order. -/
theorem note_names_12 :
    generateNoteNamesForDivision 12 =
      "C" :: "C#" :: "D" :: "D#" :: "E" :: "F" ::
        "F#" :: "G" :: "G#" :: "A" :: "A#" :: "B" :: [] := by
  rw [generateNoteNamesForDivision,
    List.map_congr_left (fun s _ => noteName_12_natural s)]
  decide

end

end ChordProg
